import Mathlib

/-!
Verification of the RSG chiptune audio engine core against its
specification.  The engine has two implementations in the repository:
`src/jln/sq_audio_core_vNext_hardline_v0.2h.js` (class `SQAudioEngine`,
called "jln" below) and `src/unnamed/part_000` (class `SQAudioCore`,
called "core" below).

Modelling conventions.  JavaScript numbers are embedded as rationals (`ℚ`)
wherever the code only does field arithmetic, comparisons, `Math.floor` and
`Math.round`, and as reals (`ℝ`) where it evaluates transcendental
functions (`Math.sin`, `Math.cos`, `Math.pow`).  A value the code guards
with `Number.isFinite` is embedded as `Option ℚ`: `none` stands for a
missing or non-finite (NaN / ±Infinity) input, every rational is finite.
JS `Map` objects are embedded as association lists in insertion order.
Scheduled Web Audio parameter automation is embedded as the function from
time to parameter value that the W3C `AudioParam` event semantics assigns
to the scheduled event list (spelled out at `playNoteGain` below).
-/

/-- `clamp` of the jln file (line 30) on finite inputs:
`Math.max(a, Math.min(b, n))`.  (The non-finite fallback to `a` is
resolved at use sites.) -/
def jsClamp (x a b : ℚ) : ℚ := max a (min b x)

/-- `numOr` of the jln file (line 36): a finite number passes through,
otherwise the default `d`. -/
def numOr (x : Option ℚ) (d : ℚ) : ℚ := x.getD d

/-! ### PhraseSongPlayer: loop-window scheduling (jln `playSong`, lines 636–750) -/

/-- A song's loop window in beats (`loop.start`, `loop.end`). -/
structure LoopSpec where
  lstart : ℚ
  lend : ℚ

/-- `beatSec = 60 / Math.max(1, tempo)` (jln line 641). -/
def beatSec (tempo : ℚ) : ℚ := 60 / max 1 tempo

/-- `loopLenSec = loopLenBeats * beatSec` with
`loopLenBeats = loop.end - loop.start` (jln lines 711–712). -/
def loopLenSec (tempo : ℚ) (lp : LoopSpec) : ℚ := (lp.lend - lp.lstart) * beatSec tempo

/-- `loopBaseT = tStart + loop.end * beatSec` (jln line 717): the audio
time where the first repeated loop window starts. -/
def loopBaseT (tStart tempo : ℚ) (lp : LoopSpec) : ℚ := tStart + lp.lend * beatSec tempo

/-- The start time of the i-th repeated loop window exactly as `pumpLoop`
computes it (jln lines 729–730): `loopBaseT + nextLoopI * loopLenSec`,
with the integer iteration counter `nextLoopI`. -/
def loopIterStart (tStart tempo : ℚ) (lp : LoopSpec) (i : ℕ) : ℚ :=
  loopBaseT tStart tempo lp + i * loopLenSec tempo lp

/-- The loop clamp of `scheduleTracks` (jln lines 675–687) for an event at
beat `bt` with duration `dBeat` inside a window ending at beat `wend`:
`eps = 1e-9`; when `bt + dBeat > wend - eps` the duration becomes
`Math.max(0, (wend - bt) - eps)` and the event is dropped (`continue`) when
that is `≤ 0`.  `none` models the dropped event. -/
def loopClampDuration (wend bt dBeat : ℚ) : Option ℚ :=
  if bt + dBeat > wend - 1/1000000000 then
    if max 0 (wend - bt - 1/1000000000) ≤ 0 then none
    else some (max 0 (wend - bt - 1/1000000000))
  else some dBeat

/-! ### playNote argument checks and note-off time (jln lines 281–339) -/

/-- The arguments of one `playNote` call that its bank/bus checks and
note-off computation read.  `busKey` is `none` when absent (the code then
uses `'master'`); `dSec` is `none` when missing or non-finite. -/
structure PlayNoteParams where
  toneId : String
  busKey : Option String
  t0 : ℚ
  dSec : Option ℚ
deriving DecidableEq

/-- The onset and note-off times `playNote` derives:
`tOff = t0 + dSec` with `dSec = Math.max(0.001, numOr(params.dSec, 0.25))`
(jln lines 296 and 331). -/
structure NoteTimes where
  t0 : ℚ
  tOff : ℚ
deriving DecidableEq

/-- The leading checks of `playNote` (jln lines 283–296, 331): throw when
no tone bank is loaded, when the tone id is unknown, or when the bus key
is unknown; otherwise compute the note times.  `toneBank` is the set of
loaded tone ids (`none`: no bank loaded), `busKeys` the keys of
`this.buses`. -/
def playNoteCheck : Option (List String) → List String → PlayNoteParams →
    Except String NoteTimes
  | none, _, _ => .error ("toneBank not loaded")
  | some tones, busKeys, p =>
    if p.toneId ∈ tones then
      if p.busKey.getD "master" ∈ busKeys then
        .ok { t0 := p.t0, tOff := p.t0 + max (1/1000) (numOr p.dSec (1/4)) }
      else .error ("Unknown bus: " ++ p.busKey.getD "master")
    else .error ("Unknown toneId: " ++ p.toneId)

/-! ### VoiceManager: the `_activeTracks` map of `playTone` (core lines 586–683)

The JS `Map` is an association list in insertion order; voices are
identified by a serial number (`ℕ`), standing for JS object identity of
the registered entry. -/

/-- `Map.prototype.get`. -/
def alGet {α : Type} : List (String × α) → String → Option α
  | [], _ => none
  | (k, v) :: rest, key => if k = key then some v else alGet rest key

/-- `Map.prototype.set`: replace the binding in place when the key is
present, append it otherwise. -/
def alSet {α : Type} : List (String × α) → String → α → List (String × α)
  | [], key, v => [(key, v)]
  | (k, w) :: rest, key, v =>
    if k = key then (k, v) :: rest else (k, w) :: alSet rest key v

/-- `Map.prototype.delete`. -/
def alDelete {α : Type} : List (String × α) → String → List (String × α)
  | [], _ => []
  | (k, v) :: rest, key => if k = key then rest else (k, v) :: alDelete rest key

/-- The keys of the map, in order. -/
def alKeys {α : Type} (m : List (String × α)) : List String := m.map Prod.fst

/-- One `playTone` trigger on `_activeTracks` (core lines 595–615 and
665–671): when an entry exists under `trackId` the old voice is stopped
and its entry deleted, then the new voice's entry is registered. -/
def playToneTrigger (m : List (String × ℕ)) (trackId : String) (voice : ℕ) :
    List (String × ℕ) :=
  alSet (if (alGet m trackId).isSome then alDelete m trackId else m) trackId voice

/-- The `onended` self-cleanup of `playTone` (core lines 674–679): the
entry is deleted only when the entry currently registered under `trackId`
is this voice's own (`this._activeTracks.get(trackId) === entry`). -/
def playToneEnded (m : List (String × ℕ)) (trackId : String) (voice : ℕ) :
    List (String × ℕ) :=
  if alGet m trackId = some voice then alDelete m trackId else m

/-- A history of registry operations: non-poly triggers and natural
completions. -/
inductive VoiceEvent where
  | trig (trackId : String) (voice : ℕ)
  | ended (trackId : String) (voice : ℕ)

/-- Run a history of triggers and completions against the registry. -/
def runVoices (m : List (String × ℕ)) : List VoiceEvent → List (String × ℕ)
  | [] => m
  | .trig k v :: rest => runVoices (playToneTrigger m k v) rest
  | .ended k v :: rest => runVoices (playToneEnded m k v) rest

/-! ### Bus/FXChain: `_getOrCreateBus` (core lines 460–504) -/

/-- The filter block of a tone JSON (`toneJson.filter`): the four fields
`_getOrCreateBus` reads.  `none` models an absent field. -/
structure FilterDef where
  hpf_hz : Option ℚ
  lpf_hz : Option ℚ
  bit_depth : Option ℚ
  sr_crush_hz : Option ℚ
deriving DecidableEq

/-- The numeric state of a constructed bus FX chain (core lines 466–501):
highpass/lowpass cutoffs, bit-depth key for the shaper curve, sample-rate
crush target, whether an SR-crush node is inserted (the outer
`0 < sr_crush_hz < sampleRate` gate of line 484 together with the
`targetHz >= sampleRate - 1` bypass inside `_createSRCrushNode`, line 338),
the output gain, and the stored `filterSnapshot`. -/
structure BusModel where
  hpfHz : ℚ
  lpfHz : ℚ
  bitDepth : ℚ
  srCrushHz : ℚ
  hasSrNode : Bool
  outGain : ℚ
  filterSnapshot : FilterDef
deriving DecidableEq

/-- Construction of the FX chain from the requesting call's filter block
(core lines 466–501): `hpf_hz ?? 20`, `lpf_hz ?? 12000`, `bit_depth ?? 12`,
`sr_crush_hz ?? 44100`. -/
def mkBus (sampleRate : ℚ) (f : FilterDef) (masterGain : ℚ) : BusModel :=
  { hpfHz := f.hpf_hz.getD 20
    lpfHz := f.lpf_hz.getD 12000
    bitDepth := f.bit_depth.getD 12
    srCrushHz := f.sr_crush_hz.getD 44100
    hasSrNode := decide (0 < f.sr_crush_hz.getD 44100 ∧
      f.sr_crush_hz.getD 44100 < sampleRate - 1)
    outGain := masterGain
    filterSnapshot := f }

/-- `String(busKey || "default")` (core line 462) for a string key: the
empty string is falsy. -/
def busKeyNorm (k : String) : String := if k = "" then "default" else k

/-- `_getOrCreateBus` (core lines 460–504): return the cached chain when
the key is present — ignoring the filter parameters of this request —
otherwise build the chain from this request's parameters and cache it. -/
def getOrCreateBus (sampleRate : ℚ) (c : List (String × BusModel)) (busKey : String)
    (f : FilterDef) (masterGain : ℚ) : BusModel × List (String × BusModel) :=
  match alGet c (busKeyNorm busKey) with
  | some b => (b, c)
  | none => (mkBus sampleRate f masterGain,
      alSet c (busKeyNorm busKey) (mkBus sampleRate f masterGain))

/-- A sequence of `playToneBus` bus requests (core line 555: every note
passes its own filter block and `masterGain = 1.0`). -/
def runBusRequests (sampleRate : ℚ) : List (String × FilterDef) →
    List (String × BusModel) → List (String × BusModel)
  | [], c => c
  | (k, f) :: rest, c => runBusRequests sampleRate rest (getOrCreateBus sampleRate c k f 1).2

/-- How many times along a request sequence the chain for `key` is
actually constructed (cache miss on that key). -/
def busBuilds (sampleRate : ℚ) : List (String × FilterDef) →
    List (String × BusModel) → String → ℕ
  | [], _, _ => 0
  | (k, f) :: rest, c, key =>
    (if busKeyNorm k = key ∧ alGet c key = none then 1 else 0) +
      busBuilds sampleRate rest (getOrCreateBus sampleRate c k f 1).2 key

/-- The filter block of the first request routed to `key`. -/
def firstFilterFor (key : String) : List (String × FilterDef) → Option FilterDef
  | [] => none
  | (k, f) :: rest => if busKeyNorm k = key then some f else firstFilterFor key rest

/-! ### WaveformFactory: sample-and-hold noise (jln `makeNoiseBuffer`,
lines 45–66; core `_getNoiseBuffer`, lines 225–253)

Both loops redraw the random value exactly at sample indices that are
multiples of `step` and hold it in between (jln: `if ((i % step) === 0)`;
core: the countdown counter `c`).  The random draws themselves are not
modelled; the run structure — which samples share one draw — is. -/

/-- jln hold step: `Math.max(1, Math.floor(sr / Math.max(1, r)))`
(line 59). -/
def noiseStepJln (sr : ℕ) (r : ℚ) : ℕ := max 1 (⌊(sr : ℚ) / max 1 r⌋).toNat

/-- jln buffer length: `Math.max(1, Math.floor(sr * 2.0))` (lines 47–48),
which is `2 * sr` for the integer sample rate `sr = ctx.sampleRate|0`. -/
def noiseLenJln (sr : ℕ) : ℕ := max 1 (2 * sr)

/-- core rate key: `Math.max(20, Math.floor(rateHz))` (line 227). -/
def noiseKeyCore (r : ℚ) : ℕ := (max 20 ⌊r⌋).toNat

/-- core hold step: `Math.max(1, Math.floor(sr / Math.max(20, key)))`
(line 237); `sr / key` is integer division of the two integers. -/
def noiseStepCore (sr : ℕ) (r : ℚ) : ℕ := max 1 (sr / noiseKeyCore r)

/-- The sample index at which the value held at sample `i` was drawn: the
greatest multiple of `step` that is `≤ i`. -/
def noiseHoldStart (step i : ℕ) : ℕ := step * (i / step)

/-- The run of samples sharing sample `i`'s held value, inside a buffer of
`len` samples. -/
def noiseRun (step len i : ℕ) : Finset ℕ :=
  (Finset.range len).filter (fun j => noiseHoldStart step j = noiseHoldStart step i)

/-! ### WaveformFactory: bit-depth quantization curve
(core `_getBitDepthCurve`, lines 135–150) -/

/-- The bit clamp (line 136): `Math.max(2, Math.min(16, bits|0))`; the
argument is the value after JS `|0` integer truncation. -/
def bitDepthBits (bits : ℤ) : ℤ := max 2 (min 16 bits)

/-- `levels = Math.pow(2, bits)` (line 140). -/
def bitLevels (bits : ℤ) : ℚ := 2 ^ (bitDepthBits bits).toNat

/-- The quantizer sampled by the curve (lines 145–146):
`q = Math.round((x*0.5+0.5)*(levels-1))/(levels-1)`, entry `q*2-1`.
JS `Math.round` is round-half-up, `⌊x + 1/2⌋`, which is Mathlib's
`round` on `ℚ`. -/
def bitQuantize (bits : ℤ) (x : ℚ) : ℚ :=
  ((round ((x * (1/2) + 1/2) * (bitLevels bits - 1)) : ℤ) : ℚ)
    / (bitLevels bits - 1) * 2 - 1

/-- The table abscissa (line 144): `x = (i/(n-1))*2 - 1` with `n = 2048`. -/
def curveX (i : Fin 2048) : ℚ := (i.val : ℚ) / 2047 * 2 - 1

/-- The 2048-point quantization curve (lines 142–147). -/
def bitDepthCurve (bits : ℤ) (i : Fin 2048) : ℚ := bitQuantize bits (curveX i)

/-! ### WaveformFactory: pulse periodic-wave tables
(jln `makePulseWave`, lines 68–87; core `_getPulseWave`, lines 153–182) -/

noncomputable section

/-- `clamp` of the jln file (line 30) over the reals (finite inputs). -/
def jsClampR (x a b : ℝ) : ℝ := max a (min b x)

/-- The duty `makePulseWave` actually uses (line 70):
`clamp(Number(duty)||0.5, 0.01, 0.99)` — a duty of exactly 0 is falsy in
JS and falls back to 0.5 before the clamp. -/
def jlnPulseDuty (duty : ℝ) : ℝ := jsClampR (if duty = 0 then 0.5 else duty) 0.01 0.99

/-- `makePulseWave` real coefficients (lines 72–81): tables of length
`H+1 = 65`, index 0 cleared (DC removed), and for `1 ≤ k ≤ 64`
`real[k] = 2 * Math.sin(2*PI*k*d) / (PI * k)`. -/
def jlnPulseReal (duty : ℝ) (k : Fin 65) : ℝ :=
  if k.val = 0 then 0
  else 2 * Real.sin (2 * Real.pi * k.val * jlnPulseDuty duty) / (Real.pi * k.val)

/-- `makePulseWave` imaginary coefficients (line 78):
`imag[k] = 2 * (1 - Math.cos(2*PI*k*d)) / (PI * k)` for `1 ≤ k ≤ 64`. -/
def jlnPulseImag (duty : ℝ) (k : Fin 65) : ℝ :=
  if k.val = 0 then 0
  else 2 * (1 - Real.cos (2 * Real.pi * k.val * jlnPulseDuty duty)) / (Real.pi * k.val)

/-- `_getPulseWave` duty clamp (core lines 156–158):
`Math.max(0.05, Math.min(0.95, D))` (a non-finite duty falls back to 0.5
first; `ℝ` inputs are all finite).  The cache key additionally quantizes
the duty to three decimals, but the generated table itself is computed
from this clamped duty. -/
def corePulseDuty (duty : ℝ) : ℝ := max 0.05 (min 0.95 duty)

/-- `_getPulseWave` real coefficients (lines 166–177): tables of length
`size = 64`, index 0 cleared, and for `1 ≤ n ≤ 63`
`real[n] = (2 / (n * Math.PI)) * Math.sin(n * Math.PI * D)`. -/
def corePulseReal (duty : ℝ) (n : Fin 64) : ℝ :=
  if n.val = 0 then 0
  else (2 / (n.val * Real.pi)) * Real.sin (n.val * Real.pi * corePulseDuty duty)

/-- `_getPulseWave` imaginary coefficients (line 175): identically 0. -/
def corePulseImag (duty : ℝ) (n : Fin 64) : ℝ := 0

/-! ### Voice envelope: the gain automation of `playNote`
(jln lines 281–376) -/

/-- The envelope-relevant arguments of one `playNote` trigger, all finite
(the `numOr`/`clamp` fallbacks for non-finite inputs have already been
resolved, jln lines 294–306): trigger time `t0`, raw ADSR values in
seconds (`sustain` a fraction), requested duration `dSec`, tone gain and
velocity. -/
structure EnvParams where
  t0 : ℝ
  attack : ℝ
  decay : ℝ
  sustain : ℝ
  release : ℝ
  dSec : ℝ
  baseGain : ℝ
  vel : ℝ

/-- `g0 = 0.0001` (jln line 342): the near-silence floor every
exponential ramp is anchored to. -/
def envFloor : ℝ := 1/10000

/-- `peak = Math.max(0.0002, baseGain * v)` with `v = clamp(v, 0, 1)`
(jln lines 289, 327). -/
def envPeak (p : EnvParams) : ℝ := max (2/10000) (p.baseGain * jsClampR p.vel 0 1)

/-- `tA = t0 + clamp(env.attack, 0, 4)` (jln line 328). -/
def envTA (p : EnvParams) : ℝ := p.t0 + jsClampR p.attack 0 4

/-- `tD = tA + clamp(env.decay, 0, 4)` (jln line 329). -/
def envTD (p : EnvParams) : ℝ := envTA p + jsClampR p.decay 0 4

/-- `susLevel = Math.max(0.0002, peak * sus)` with
`sus = clamp(env.sustain, 0, 1)` (jln lines 330, 343). -/
def envSusLevel (p : EnvParams) : ℝ :=
  max (2/10000) (envPeak p * jsClampR p.sustain 0 1)

/-- `tOff = t0 + dSec` with `dSec = Math.max(0.001, dSec)` for a finite
requested duration (jln lines 296, 331). -/
def envTOff (p : EnvParams) : ℝ := p.t0 + max 0.001 p.dSec

/-- `tR = tOff + clamp(env.release, 0.001, 6)` (jln line 332). -/
def envTR (p : EnvParams) : ℝ := envTOff p + jsClampR p.release 0.001 6

/-- The code's own `expAt` interpolation helper (jln lines 347–354):
`v(t) = v0 * (v1/v0)^p` with `p = (tx-t0x)/(t1x-t0x)` clamped to [0,1]
and both endpoints floored at `g0`; when the ramp has no positive width
it returns `v1`. -/
def expAt (v0 v1 t0x t1x tx : ℝ) : ℝ :=
  if t0x < t1x then
    max envFloor v0 * (max envFloor v1 / max envFloor v0) ^
      (max 0 (min 1 ((tx - t0x) / (t1x - t0x))))
  else v1

/-- A Web Audio exponential ramp from value `v0` at time `a` to value
`v1` at time `b`, evaluated at `t`: `v0 * (v1/v0)^((t-a)/(b-a))`. -/
def expRampAt (v0 v1 a b t : ℝ) : ℝ := v0 * (v1 / v0) ^ ((t - a) / (b - a))

/-- The gain-vs-time function that the `playNote` automation calls
(jln lines 323–376) assign to the voice's gain parameter, under the W3C
`AudioParam` semantics: `setValueAtTime(v, te)` holds `v` from `te` until
the next event; `exponentialRampToValueAtTime(v1, t1)` interpolates
`v0*(v1/v0)^((t-te)/(t1-te))` on `[te, t1]` from the previous event
`(te, v0)`; and `cancelScheduledValues(tc)` removes every scheduled event
whose event time is `≥ tc` — including a ramp still in progress at `tc`,
since a ramp's event time is its end time — after which the parameter
keeps the previous remaining event's value.

The calls are: set `g0` at `t0`; ramp to `peak` at `tA`; ramp to
`susLevel` at `tD`; then, when `tOff ≤ tD` (early note-off), cancel from
`tOff`, set `max(g0, expAt(...))` at `tOff` and ramp to `g0` at `tR`;
otherwise set `susLevel` at `tOff` and ramp to `g0` at `tR`.  When
`tOff ≤ tA` the cancel removes both ramps (both end at or after `tOff`),
so the value is the floor `g0` on `[t0, tOff)`; when `tA < tOff ≤ tD`
only the decay ramp is removed and the value holds at `peak` on
`[tA, tOff)`.  Before `t0` the gain node's initial value 1 stands. -/
def playNoteGain (p : EnvParams) (t : ℝ) : ℝ :=
  if t < p.t0 then 1
  else if envTOff p ≤ envTD p then
    if envTOff p ≤ envTA p then
      if t < envTOff p then envFloor
      else if t ≤ envTR p then
        expRampAt (max envFloor (expAt envFloor (envPeak p) p.t0 (envTA p) (envTOff p)))
          envFloor (envTOff p) (envTR p) t
      else envFloor
    else
      if t ≤ envTA p then expRampAt envFloor (envPeak p) p.t0 (envTA p) t
      else if t < envTOff p then envPeak p
      else if t ≤ envTR p then
        expRampAt
          (max envFloor (expAt (envPeak p) (envSusLevel p) (envTA p) (envTD p) (envTOff p)))
          envFloor (envTOff p) (envTR p) t
      else envFloor
  else
    if t ≤ envTA p then expRampAt envFloor (envPeak p) p.t0 (envTA p) t
    else if t ≤ envTD p then expRampAt (envPeak p) (envSusLevel p) (envTA p) (envTD p) t
    else if t < envTOff p then envSusLevel p
    else if t ≤ envTR p then expRampAt (envSusLevel p) envFloor (envTOff p) (envTR p) t
    else envFloor

/-- A concrete early-note-off trigger: `t0 = 0`, attack 0.1 s, decay
0.2 s, sustain 0.5, release 0.1 s, requested duration `dSec = 0.05` (so
the note-off falls mid-attack), tone gain 0.8, velocity 1. -/
def earlyOffParams : EnvParams :=
  { t0 := 0, attack := 1/10, decay := 1/5, sustain := 1/2, release := 1/10,
    dSec := 1/20, baseGain := 4/5, vel := 1 }

end


/-! ## Theorems -/

/-! ### C2: drift-free loop iteration start times -/

/-- C2: in `playSong`, the i-th repeated loop window starts at
`loopBaseT + i * loopLenSec` with an integer iteration counter, and for a
tempo `T ≥ 1` successive iteration boundaries differ by exactly
`(end - start) * 60 / T` seconds, for every iteration index. -/
theorem playSong_loop_iteration_spacing (tStart tempo : ℚ) (lp : LoopSpec) (i : ℕ)
    (ht : 1 ≤ tempo) :
    loopIterStart tStart tempo lp i =
      loopBaseT tStart tempo lp + i * loopLenSec tempo lp ∧
    loopIterStart tStart tempo lp (i + 1) - loopIterStart tStart tempo lp i =
      (lp.lend - lp.lstart) * 60 / tempo := by
  refine ⟨rfl, ?_⟩
  have h0 : tempo ≠ 0 := by intro h; rw [h] at ht; norm_num at ht
  have hmax : max 1 tempo = tempo := max_eq_right ht
  simp only [loopIterStart, loopLenSec, beatSec, hmax]
  push_cast
  field_simp
  ring

/-- Witness for C2 at the spec's own example: tempo 120, loop window
[0, 4) beats, first boundary step. -/
theorem playSong_loop_iteration_spacing_witness :
    loopIterStart 0 120 ⟨0, 4⟩ 0 = loopBaseT 0 120 ⟨0, 4⟩ + 0 * loopLenSec 120 ⟨0, 4⟩ ∧
    loopIterStart 0 120 ⟨0, 4⟩ (0 + 1) - loopIterStart 0 120 ⟨0, 4⟩ 0 =
      ((4 : ℚ) - 0) * 60 / 120 :=
  playSong_loop_iteration_spacing 0 120 ⟨0, 4⟩ 0 (by norm_num)

/-! ### C6: the loop clamp at the window end -/

/-- C6 counterexample: with window end 4, an event at beat 3 of duration
2 is clipped to `1 - 1e-9` beats — it ends `1e-9` beats *before* the
boundary, not exactly at it — and an event at beat 3 of duration 1, whose
interval `[3, 4)` lies inside the window, is not scheduled unchanged. -/
theorem loop_clamp_boundary_cex :
    loopClampDuration 4 3 2 = some (1 - 1/1000000000) ∧
    (3 : ℚ) + (1 - 1/1000000000) ≠ 4 ∧
    loopClampDuration 4 3 1 ≠ some 1 := by
  have hmax : max (0 : ℚ) (4 - 3 - 1/1000000000) = 4 - 3 - 1/1000000000 :=
    max_eq_right (by norm_num)
  refine ⟨?_, by norm_num, ?_⟩
  · unfold loopClampDuration
    rw [if_pos (by norm_num), if_neg (by rw [hmax]; norm_num), hmax]
    norm_num
  · unfold loopClampDuration
    rw [if_pos (by norm_num), if_neg (by rw [hmax]; norm_num), hmax]
    intro hEq
    have h2 := Option.some.inj hEq
    norm_num at h2

/-- C6 (amended): an event whose beat interval would end strictly later
than `wend - 1e-9` has its duration clipped to `wend - bt - 1e-9` (and is
dropped when that is not positive); an event ending at or before
`wend - 1e-9` is scheduled unchanged; consequently every scheduled
duration `d2` satisfies `bt + d2 ≤ wend - 1e-9 < wend` — no note crosses
the window end, but a clipped note ends `1e-9` beats short of it. -/
theorem loop_clamp_amended (wend bt d : ℚ) :
    (bt + d ≤ wend - 1/1000000000 → loopClampDuration wend bt d = some d) ∧
    (wend - 1/1000000000 < bt + d → 0 < wend - bt - 1/1000000000 →
      loopClampDuration wend bt d = some (wend - bt - 1/1000000000)) ∧
    (wend - 1/1000000000 < bt + d → wend - bt - 1/1000000000 ≤ 0 →
      loopClampDuration wend bt d = none) ∧
    (∀ d2, loopClampDuration wend bt d = some d2 → bt + d2 ≤ wend - 1/1000000000) := by
  refine ⟨?_, ?_, ?_, ?_⟩
  · intro h
    unfold loopClampDuration
    rw [if_neg (by push_neg; linarith)]
  · intro h hpos
    unfold loopClampDuration
    rw [if_pos (by linarith), if_neg (by rw [max_eq_right hpos.le]; exact not_le.mpr hpos),
      max_eq_right hpos.le]
  · intro h hnp
    unfold loopClampDuration
    rw [if_pos (by linarith), if_pos ((max_eq_left hnp).le)]
  · intro d2 h2
    unfold loopClampDuration at h2
    by_cases hc : bt + d > wend - 1/1000000000
    · rw [if_pos hc] at h2
      by_cases hz : max 0 (wend - bt - 1/1000000000) ≤ 0
      · rw [if_pos hz] at h2; exact absurd h2 (by simp)
      · rw [if_neg hz] at h2
        have h3 : 0 < wend - bt - 1/1000000000 := by
          by_contra hn
          exact hz (by rw [max_eq_left (by linarith)])
        rw [max_eq_right h3.le] at h2
        have := Option.some.inj h2
        linarith [this.symm.le]
    · rw [if_neg hc] at h2
      have := Option.some.inj h2
      push_neg at hc
      linarith [this ▸ hc]

/-! ### C9: unknown tone/bus ids raise descriptive errors -/

/-- C9: a `playNote` call with no bank loaded, an unknown tone id, or an
unknown bus key throws the corresponding descriptive error, and the call
succeeds only when the bank is loaded and both ids are known — such a
trigger is never silently dropped. -/
theorem playNote_unknown_id_errors (toneBank : Option (List String))
    (busKeys : List String) (p : PlayNoteParams) :
    playNoteCheck none busKeys p = .error ("toneBank not loaded") ∧
    (∀ tones, toneBank = some tones → p.toneId ∉ tones →
      playNoteCheck toneBank busKeys p = .error ("Unknown toneId: " ++ p.toneId)) ∧
    (∀ tones, toneBank = some tones → p.toneId ∈ tones →
      p.busKey.getD "master" ∉ busKeys →
      playNoteCheck toneBank busKeys p =
        .error ("Unknown bus: " ++ p.busKey.getD "master")) ∧
    (∀ r, playNoteCheck toneBank busKeys p = .ok r →
      ∃ tones, toneBank = some tones ∧ p.toneId ∈ tones ∧
        p.busKey.getD "master" ∈ busKeys) := by
  refine ⟨rfl, ?_, ?_, ?_⟩
  · rintro tones rfl hmem
    simp only [playNoteCheck]
    rw [if_neg hmem]
  · rintro tones rfl hmem hbus
    simp only [playNoteCheck]
    rw [if_pos hmem, if_neg hbus]
  · intro r hr
    cases toneBank with
    | none => simp [playNoteCheck] at hr
    | some tones =>
      simp only [playNoteCheck] at hr
      by_cases h1 : p.toneId ∈ tones
      · rw [if_pos h1] at hr
        by_cases h2 : p.busKey.getD "master" ∈ busKeys
        · exact ⟨tones, rfl, h1, h2⟩
        · rw [if_neg h2] at hr
          simp at hr
      · rw [if_neg h1] at hr
        simp at hr

/-! ### C10: the effective duration floor -/

/-- C10: whenever `playNote` succeeds, the note-off time is
`t0 + max(0.001, dSec)` for a finite requested duration and `t0 + 0.25`
for a missing or non-finite one, so `tOff ≥ t0 + 0.001` always — the
note-off is strictly after the onset. -/
theorem playNote_duration_floor (toneBank : Option (List String))
    (busKeys : List String) (p : PlayNoteParams) (r : NoteTimes)
    (h : playNoteCheck toneBank busKeys p = .ok r) :
    (∀ d, p.dSec = some d → r.tOff = p.t0 + max (1/1000) d) ∧
    (p.dSec = none → r.tOff = p.t0 + 1/4) ∧
    p.t0 + 1/1000 ≤ r.tOff := by
  cases toneBank with
  | none => simp [playNoteCheck] at h
  | some tones =>
    simp only [playNoteCheck] at h
    by_cases h1 : p.toneId ∈ tones
    · rw [if_pos h1] at h
      by_cases h2 : p.busKey.getD "master" ∈ busKeys
      · rw [if_pos h2] at h
        have hr := Except.ok.inj h
        have htOff : r.tOff = p.t0 + max (1/1000) (numOr p.dSec (1/4)) := by
          rw [← hr]
        refine ⟨?_, ?_, ?_⟩
        · intro d hd
          rw [htOff, hd]
          rfl
        · intro hd
          rw [htOff, hd]
          show p.t0 + max (1/1000) ((none : Option ℚ).getD (1/4)) = p.t0 + 1/4
          rw [Option.getD_none, max_eq_right (by norm_num)]
        · rw [htOff]
          have hm : (1/1000 : ℚ) ≤ max (1/1000) (numOr p.dSec (1/4)) := le_max_left _ _
          linarith
      · rw [if_neg h2] at h
        simp at h
    · rw [if_neg h1] at h
      simp at h

/-- Witness for C10: a loaded bank with tone "lead", the default bus, a
requested duration of 2 s. -/
theorem playNote_duration_floor_witness :
    (⟨"lead", none, 0, some 2⟩ : PlayNoteParams).t0 + 1/1000 ≤
      (⟨0, 2⟩ : NoteTimes).tOff :=
  (playNote_duration_floor (some ["lead"]) ["master"] ⟨"lead", none, 0, some 2⟩ ⟨0, 2⟩
    (by
      have hm : max (1/1000 : ℚ) 2 = 2 := max_eq_right (by norm_num)
      simp [playNoteCheck, numOr, hm]
      norm_num)).2.2

/-! ### C3: the monophonic voice registry -/

theorem alKeys_nil {α : Type} : alKeys ([] : List (String × α)) = [] := rfl

theorem alKeys_cons {α : Type} (k0 : String) (v0 : α) (tl : List (String × α)) :
    alKeys ((k0, v0) :: tl) = k0 :: alKeys tl := rfl

theorem alGet_eq_none_iff {α : Type} (m : List (String × α)) (k : String) :
    alGet m k = none ↔ k ∉ alKeys m := by
  induction m with
  | nil => simp [alGet, alKeys_nil]
  | cons hd tl ih =>
    obtain ⟨k0, v0⟩ := hd
    rw [alKeys_cons]
    by_cases h : k0 = k
    · subst h
      simp [alGet]
    · simp only [alGet, if_neg h, List.mem_cons, ih]
      constructor
      · intro hn hor
        rcases hor with hor | hor
        · exact h hor.symm
        · exact hn hor
      · intro hn hmem
        exact hn (Or.inr hmem)

theorem alGet_set_self {α : Type} (m : List (String × α)) (k : String) (v : α) :
    alGet (alSet m k v) k = some v := by
  induction m with
  | nil => simp [alSet, alGet]
  | cons hd tl ih =>
    obtain ⟨k0, v0⟩ := hd
    by_cases h : k0 = k
    · subst h
      simp [alSet, alGet]
    · simp [alSet, alGet, h, ih]

theorem alSet_cons_self {α : Type} (k : String) (v0 v : α) (tl : List (String × α)) :
    alSet ((k, v0) :: tl) k v = (k, v) :: tl := by
  simp [alSet]

theorem alSet_cons_ne {α : Type} (k0 k : String) (v0 v : α) (tl : List (String × α))
    (h : k0 ≠ k) : alSet ((k0, v0) :: tl) k v = (k0, v0) :: alSet tl k v := by
  simp [alSet, h]

theorem mem_alKeys_set {α : Type} (m : List (String × α)) (k x : String) (v : α) :
    x ∈ alKeys (alSet m k v) ↔ x = k ∨ x ∈ alKeys m := by
  induction m with
  | nil =>
    simp [alSet, alKeys_cons, alKeys_nil]
  | cons hd tl ih =>
    obtain ⟨k0, v0⟩ := hd
    by_cases h : k0 = k
    · subst h
      rw [alSet_cons_self, alKeys_cons, alKeys_cons]
      simp only [List.mem_cons]
      tauto
    · rw [alSet_cons_ne _ _ _ _ _ h, alKeys_cons, alKeys_cons]
      simp only [List.mem_cons, ih]
      tauto

theorem alKeys_nodup_set {α : Type} (m : List (String × α)) (k : String) (v : α)
    (h : (alKeys m).Nodup) : (alKeys (alSet m k v)).Nodup := by
  induction m with
  | nil => simp [alSet, alKeys_cons, alKeys_nil]
  | cons hd tl ih =>
    obtain ⟨k0, v0⟩ := hd
    rw [alKeys_cons, List.nodup_cons] at h
    by_cases hk : k0 = k
    · subst hk
      rw [alSet_cons_self, alKeys_cons, List.nodup_cons]
      exact h
    · rw [alSet_cons_ne _ _ _ _ _ hk, alKeys_cons, List.nodup_cons]
      refine ⟨?_, ih h.2⟩
      intro hmem
      rcases (mem_alKeys_set tl k k0 v).mp hmem with hor | hor
      · exact hk hor
      · exact h.1 hor

theorem alKeys_delete_sublist {α : Type} (m : List (String × α)) (k : String) :
    (alKeys (alDelete m k)).Sublist (alKeys m) := by
  induction m with
  | nil => simp [alDelete, alKeys_nil]
  | cons hd tl ih =>
    obtain ⟨k0, v0⟩ := hd
    by_cases h : k0 = k
    · simp only [alDelete, if_pos h, alKeys_cons]
      exact (List.Sublist.refl _).cons _
    · simp only [alDelete, if_neg h, alKeys_cons]
      exact ih.cons₂ _

theorem alKeys_nodup_delete {α : Type} (m : List (String × α)) (k : String)
    (h : (alKeys m).Nodup) : (alKeys (alDelete m k)).Nodup :=
  List.Nodup.sublist (alKeys_delete_sublist m k) h

theorem alGet_delete_self {α : Type} (m : List (String × α)) (k : String)
    (h : (alKeys m).Nodup) : alGet (alDelete m k) k = none := by
  induction m with
  | nil => simp [alDelete, alGet]
  | cons hd tl ih =>
    obtain ⟨k0, v0⟩ := hd
    rw [alKeys_cons, List.nodup_cons] at h
    by_cases hk : k0 = k
    · subst hk
      simp only [alDelete, if_pos rfl]
      exact (alGet_eq_none_iff tl k0).mpr h.1
    · simp only [alDelete, if_neg hk, alGet, if_neg hk]
      exact ih h.2

theorem playToneTrigger_nodup (m : List (String × ℕ)) (k : String) (v : ℕ)
    (h : (alKeys m).Nodup) : (alKeys (playToneTrigger m k v)).Nodup := by
  unfold playToneTrigger
  by_cases hs : (alGet m k).isSome
  · rw [if_pos hs]
    exact alKeys_nodup_set _ _ _ (alKeys_nodup_delete _ _ h)
  · rw [if_neg hs]
    exact alKeys_nodup_set _ _ _ h

theorem playToneEnded_nodup (m : List (String × ℕ)) (k : String) (v : ℕ)
    (h : (alKeys m).Nodup) : (alKeys (playToneEnded m k v)).Nodup := by
  unfold playToneEnded
  by_cases hs : alGet m k = some v
  · rw [if_pos hs]
    exact alKeys_nodup_delete _ _ h
  · rw [if_neg hs]
    exact h

theorem runVoices_nodup (L : List VoiceEvent) (m : List (String × ℕ))
    (h : (alKeys m).Nodup) : (alKeys (runVoices m L)).Nodup := by
  induction L generalizing m with
  | nil => exact h
  | cons e rest ih =>
    cases e with
    | trig k v => exact ih _ (playToneTrigger_nodup m k v h)
    | ended k v => exact ih _ (playToneEnded_nodup m k v h)

/-- C3: starting from a duplicate-free registry, (a) after any sequence of
non-poly triggers and natural completions the key list is duplicate-free,
so (b) at most one voice entry is registered under any key; (c) right
after a trigger the key's occupant is the new voice; (d) a natural
completion of the current occupant removes its entry, and (e) doing so is
idempotent — the voice deregisters exactly once; (f) the compare-before-
delete makes a superseded voice's completion leave the newer occupant's
entry untouched. -/
theorem mono_voice_registry (m : List (String × ℕ)) (L : List VoiceEvent)
    (k : String) (i j : ℕ) (hnd : (alKeys m).Nodup) :
    (alKeys (runVoices m L)).Nodup ∧
    List.count k (alKeys (runVoices m L)) ≤ 1 ∧
    alGet (playToneTrigger m k i) k = some i ∧
    (alGet m k = some i → alGet (playToneEnded m k i) k = none) ∧
    playToneEnded (playToneEnded m k i) k i = playToneEnded m k i ∧
    (alGet m k = some j → j ≠ i → playToneEnded m k i = m) := by
  have hrun := runVoices_nodup L m hnd
  refine ⟨hrun, List.nodup_iff_count_le_one.mp hrun k, ?_, ?_, ?_, ?_⟩
  · unfold playToneTrigger
    exact alGet_set_self _ _ _
  · intro h
    unfold playToneEnded
    rw [if_pos h]
    exact alGet_delete_self _ _ hnd
  · by_cases h : alGet m k = some i
    · have h2 : playToneEnded m k i = alDelete m k := by
        unfold playToneEnded
        rw [if_pos h]
      rw [h2]
      unfold playToneEnded
      rw [if_neg (by rw [alGet_delete_self m k hnd]; simp)]
    · have h2 : playToneEnded m k i = m := by
        unfold playToneEnded
        rw [if_neg h]
      rw [h2]
      exact h2
  · intro h hji
    unfold playToneEnded
    rw [if_neg ?hne]
    case hne =>
      rw [h]
      intro hEq
      exact hji (Option.some.inj hEq)

/-- Witness for C3: registry holding voice 1 under key "bass"; a trigger
of voice 2 steals the key and becomes the sole occupant. -/
theorem mono_voice_registry_witness :
    alGet (playToneTrigger [("bass", 1)] "bass" 2) "bass" = some 2 :=
  (mono_voice_registry [("bass", 1)] [] "bass" 2 1 (by simp [alKeys_cons, alKeys_nil])).2.2.1

/-! ### C8: shared bus FX chains are built once and frozen -/

theorem alGet_set_ne {α : Type} (m : List (String × α)) (k k2 : String) (v : α)
    (h : k ≠ k2) : alGet (alSet m k v) k2 = alGet m k2 := by
  induction m with
  | nil => simp [alSet, alGet, h]
  | cons hd tl ih =>
    obtain ⟨k0, v0⟩ := hd
    by_cases h0 : k0 = k
    · subst h0
      rw [alSet_cons_self]
      simp [alGet, h]
    · rw [alSet_cons_ne _ _ _ _ _ h0]
      simp [alGet, ih]

theorem getOrCreateBus_hit (sampleRate : ℚ) (c : List (String × BusModel))
    (k : String) (f : FilterDef) (g : ℚ) (b : BusModel)
    (h : alGet c (busKeyNorm k) = some b) :
    getOrCreateBus sampleRate c k f g = (b, c) := by
  unfold getOrCreateBus
  rw [h]

theorem getOrCreateBus_miss (sampleRate : ℚ) (c : List (String × BusModel))
    (k : String) (f : FilterDef) (g : ℚ)
    (h : alGet c (busKeyNorm k) = none) :
    getOrCreateBus sampleRate c k f g =
      (mkBus sampleRate f g, alSet c (busKeyNorm k) (mkBus sampleRate f g)) := by
  unfold getOrCreateBus
  rw [h]

theorem runBusRequests_of_some (sampleRate : ℚ) (L : List (String × FilterDef))
    (c : List (String × BusModel)) (key : String) (b : BusModel)
    (h : alGet c key = some b) :
    alGet (runBusRequests sampleRate L c) key = some b ∧
    busBuilds sampleRate L c key = 0 := by
  induction L generalizing c with
  | nil => exact ⟨h, rfl⟩
  | cons hd rest ih =>
    obtain ⟨k, f⟩ := hd
    simp only [runBusRequests, busBuilds]
    by_cases hk : busKeyNorm k = key
    · have hget : alGet c (busKeyNorm k) = some b := by rw [hk]; exact h
      rw [getOrCreateBus_hit sampleRate c k f 1 b hget,
        if_neg (by rintro ⟨h1, h2⟩; rw [h] at h2; exact Option.noConfusion h2)]
      simpa using ih c h
    · cases hx : alGet c (busKeyNorm k) with
      | some b2 =>
        rw [getOrCreateBus_hit sampleRate c k f 1 b2 hx,
          if_neg (by rintro ⟨h1, h2⟩; exact hk h1)]
        simpa using ih c h
      | none =>
        rw [getOrCreateBus_miss sampleRate c k f 1 hx,
          if_neg (by rintro ⟨h1, h2⟩; exact hk h1)]
        have h2 : alGet (alSet c (busKeyNorm k) (mkBus sampleRate f 1)) key = some b := by
          rw [alGet_set_ne _ _ _ _ hk]
          exact h
        simpa using ih _ h2

theorem runBusRequests_of_none (sampleRate : ℚ) (L : List (String × FilterDef))
    (c : List (String × BusModel)) (key : String)
    (h : alGet c key = none) :
    busBuilds sampleRate L c key ≤ 1 ∧
    alGet (runBusRequests sampleRate L c) key =
      (firstFilterFor key L).map (fun f2 => mkBus sampleRate f2 1) := by
  induction L generalizing c with
  | nil => exact ⟨by simp [busBuilds], by simpa [runBusRequests, firstFilterFor] using h⟩
  | cons hd rest ih =>
    obtain ⟨k, f⟩ := hd
    simp only [runBusRequests, busBuilds, firstFilterFor]
    by_cases hk : busKeyNorm k = key
    · have hmiss : alGet c (busKeyNorm k) = none := by rw [hk]; exact h
      rw [getOrCreateBus_miss sampleRate c k f 1 hmiss]
      have hsome : alGet (alSet c (busKeyNorm k) (mkBus sampleRate f 1)) key =
          some (mkBus sampleRate f 1) := by
        rw [hk]
        exact alGet_set_self _ _ _
      obtain ⟨hb0, hg0⟩ := runBusRequests_of_some sampleRate rest _ key _ hsome
      constructor
      · rw [if_pos ⟨hk, h⟩, hg0]
      · rw [if_pos hk, hb0]
        rfl
    · have hpres : alGet ((getOrCreateBus sampleRate c k f 1).2) key = none := by
        cases hx : alGet c (busKeyNorm k) with
        | some b2 =>
          rw [getOrCreateBus_hit sampleRate c k f 1 b2 hx]
          exact h
        | none =>
          rw [getOrCreateBus_miss sampleRate c k f 1 hx]
          show alGet (alSet c (busKeyNorm k) (mkBus sampleRate f 1)) key = none
          rw [alGet_set_ne _ _ _ _ hk]
          exact h
      obtain ⟨h1, h2⟩ := ih _ hpres
      constructor
      · rw [if_neg (by rintro ⟨h3, _⟩; exact hk h3)]
        simpa using h1
      · rw [if_neg hk]
        exact h2

/-- C8: along any sequence of `playToneBus` bus requests starting from the
empty cache, the FX chain for a key is constructed at most once; the chain
finally cached under a key is `mkBus` of the *first* request's filter
parameters (later requests' parameters are ignored); and a request that
hits the cache returns the cached chain and leaves the cache unchanged,
whatever filter parameters and gain it passes. -/
theorem bus_chain_frozen (sampleRate : ℚ) (L : List (String × FilterDef)) (key : String)
    (c : List (String × BusModel)) (b : BusModel) (f : FilterDef) (g : ℚ) :
    busBuilds sampleRate L [] key ≤ 1 ∧
    alGet (runBusRequests sampleRate L []) key =
      (firstFilterFor key L).map (fun f2 => mkBus sampleRate f2 1) ∧
    (alGet c (busKeyNorm key) = some b →
      getOrCreateBus sampleRate c key f g = (b, c)) := by
  obtain ⟨h1, h2⟩ := runBusRequests_of_none sampleRate L [] key rfl
  exact ⟨h1, h2, fun h => getOrCreateBus_hit sampleRate c key f g b h⟩

/-! ### C7: sample-and-hold noise runs -/

/-- C7 counterexample.  With `sr = 10`, `r = 3` in `makeNoiseBuffer`:
`step = 3`, `len = 20`, and the final run (samples 18, 19) persists only 2
samples, not `⌊sr/r⌋ = 3`.  With `r = 1/2 ∈ (0, 1)`: the code holds for
`max(1, ⌊10/max(1, 1/2)⌋) = 10` samples, not `⌊sr/r⌋ = 20`.  And
`_getNoiseBuffer` quantizes the rate first: at `r = 25.5`, `sr = 44100`
it holds for `⌊44100/25⌋ = 1764` samples, not `⌊44100/25.5⌋ = 1729`. -/
theorem noise_hold_run_cex :
    noiseStepJln 10 3 = 3 ∧ noiseLenJln 10 = 20 ∧
    (noiseRun 3 20 18).card = 2 ∧ (2 : ℕ) ≠ 3 ∧
    noiseStepJln 10 (1/2) = 10 ∧ ⌊(10 : ℚ) / (1/2)⌋ = 20 ∧
    noiseStepCore 44100 (51/2) = 1764 ∧ ⌊(44100 : ℚ) / (51/2)⌋ = 1729 := by
  refine ⟨?_, by decide, by decide, by decide, ?_, ?_, ?_, ?_⟩
  · unfold noiseStepJln
    simp only [Nat.cast_ofNat]
    rw [show max (1 : ℚ) 3 = 3 from max_eq_right (by norm_num),
      show ⌊(10 : ℚ) / 3⌋ = 3 from by rw [Int.floor_eq_iff] <;> norm_num]
    decide
  · unfold noiseStepJln
    simp only [Nat.cast_ofNat]
    rw [show max (1 : ℚ) (1/2) = 1 from max_eq_left (by norm_num),
      show ⌊(10 : ℚ) / 1⌋ = 10 from by rw [Int.floor_eq_iff] <;> norm_num]
    decide
  · rw [Int.floor_eq_iff] <;> norm_num
  · unfold noiseStepCore noiseKeyCore
    rw [show ⌊(51/2 : ℚ)⌋ = 25 from by rw [Int.floor_eq_iff] <;> norm_num]
    decide
  · rw [Int.floor_eq_iff] <;> norm_num

/-- C7 (amended): for a rate `1 ≤ r ≤ sr` the jln hold step is exactly
`⌊sr/r⌋`; each buffer sample `i` belongs to the hold run
`[s, min(len, s+step))` with `s = step*⌊i/step⌋`; a run that fits inside
the buffer persists exactly `step` samples, and the final run persists
`min(step, len - s) ≥ 1` samples — shorter than `step` when `step` does
not divide the buffer length.  (`_getNoiseBuffer` has the same run
structure with its step `max(1, ⌊sr / max(20, ⌊r⌋)⌋)`.) -/
theorem noise_hold_runs_amended (sr len step i : ℕ) (r : ℚ)
    (hstep : 1 ≤ step) (hi : i < len) (hr1 : 1 ≤ r) (hrs : r ≤ (sr : ℚ)) :
    noiseStepJln sr r = (⌊(sr : ℚ) / r⌋).toNat ∧
    noiseRun step len i =
      Finset.Ico (noiseHoldStart step i) (min len (noiseHoldStart step i + step)) ∧
    (noiseRun step len i).card = min step (len - noiseHoldStart step i) ∧
    1 ≤ (noiseRun step len i).card ∧
    (noiseHoldStart step i + step ≤ len → (noiseRun step len i).card = step) := by
  have hstep0 : 0 < step := hstep
  have hr0 : (0 : ℚ) < r := lt_of_lt_of_le one_pos hr1
  have hs_le : noiseHoldStart step i ≤ i := by
    unfold noiseHoldStart
    calc step * (i / step) = i / step * step := mul_comm _ _
      _ ≤ i := Nat.div_mul_le_self i step
  have hfib : ∀ j, noiseHoldStart step j = noiseHoldStart step i ↔
      (noiseHoldStart step i ≤ j ∧ j < noiseHoldStart step i + step) := by
    intro j
    unfold noiseHoldStart
    constructor
    · intro hEq
      refine ⟨?_, ?_⟩
      · calc step * (i / step) = step * (j / step) := hEq.symm
          _ = j / step * step := mul_comm _ _
          _ ≤ j := Nat.div_mul_le_self j step
      · have hdm : step * (j / step) + j % step = j := Nat.div_add_mod j step
        have hmod : j % step < step := Nat.mod_lt j hstep0
        calc j = step * (j / step) + j % step := hdm.symm
          _ < step * (j / step) + step := Nat.add_lt_add_left hmod _
          _ = step * (i / step) + step := by rw [hEq]
    · rintro ⟨h1, h2⟩
      have hq : j / step = i / step := by
        apply Nat.div_eq_of_lt_le
        · calc i / step * step = step * (i / step) := mul_comm _ _
            _ ≤ j := h1
        · calc j < step * (i / step) + step := h2
            _ = i / step * step + step := by rw [mul_comm]
            _ = (i / step + 1) * step := (Nat.succ_mul _ _).symm
      rw [hq]
  have hrun_eq : noiseRun step len i =
      Finset.Ico (noiseHoldStart step i) (min len (noiseHoldStart step i + step)) := by
    ext j
    simp only [noiseRun, Finset.mem_filter, Finset.mem_range, Finset.mem_Ico, lt_min_iff]
    constructor
    · rintro ⟨hjlen, hEq⟩
      obtain ⟨h1, h2⟩ := (hfib j).mp hEq
      exact ⟨h1, hjlen, h2⟩
    · rintro ⟨h1, hjlen, h2⟩
      exact ⟨hjlen, (hfib j).mpr ⟨h1, h2⟩⟩
  have hcard : (noiseRun step len i).card = min step (len - noiseHoldStart step i) := by
    rw [hrun_eq, Nat.card_Ico]
    rcases le_total (noiseHoldStart step i + step) len with hc | hc
    · rw [min_eq_right hc, min_eq_left (by omega)]
      omega
    · rw [min_eq_left hc, min_eq_right (by omega)]
  refine ⟨?_, hrun_eq, hcard, ?_, ?_⟩
  · unfold noiseStepJln
    rw [max_eq_right hr1]
    have h1 : (1 : ℚ) ≤ (sr : ℚ) / r := (le_div_iff hr0).mpr (by linarith)
    have h2 : (1 : ℤ) ≤ ⌊(sr : ℚ) / r⌋ := Int.le_floor.mpr (by exact_mod_cast h1)
    have h3 : 1 ≤ (⌊(sr : ℚ) / r⌋).toNat := by omega
    exact max_eq_right h3
  · rw [hcard]
    exact le_min hstep (by omega)
  · intro hfit
    rw [hcard, min_eq_left (by omega)]

/-- Witness for C7: `sr = 10`, `r = 5`, a sample in the interior run
starting at 4. -/
theorem noise_hold_runs_amended_witness :
    noiseStepJln 10 5 = (⌊(10 : ℚ) / 5⌋).toNat ∧
    noiseRun 2 20 5 = Finset.Ico (noiseHoldStart 2 5) (min 20 (noiseHoldStart 2 5 + 2)) ∧
    (noiseRun 2 20 5).card = min 2 (20 - noiseHoldStart 2 5) ∧
    1 ≤ (noiseRun 2 20 5).card ∧
    (noiseHoldStart 2 5 + 2 ≤ 20 → (noiseRun 2 20 5).card = 2) :=
  noise_hold_runs_amended 10 20 2 5 5 (by norm_num) (by norm_num) (by norm_num)
    (by norm_num)

/-! ### C5: the bit-depth quantization curve -/

theorem round_mono_q {a c : ℚ} (h : a ≤ c) : round a ≤ round c := by
  rw [round_eq, round_eq]
  exact Int.floor_mono (by linarith)

theorem bitLevels_ge_four (bits : ℤ) : (4 : ℚ) ≤ bitLevels bits := by
  unfold bitLevels bitDepthBits
  have h2 : 2 ≤ (max 2 (min 16 bits)).toNat := by omega
  calc (4 : ℚ) = 2 ^ 2 := by norm_num
    _ ≤ 2 ^ (max 2 (min 16 bits)).toNat := pow_le_pow_right (by norm_num) h2

theorem bitLevels_sub_one_pos (bits : ℤ) : (0 : ℚ) < bitLevels bits - 1 := by
  have := bitLevels_ge_four bits
  linarith

theorem bitQuantize_mono (bits : ℤ) {x y : ℚ} (h : x ≤ y) :
    bitQuantize bits x ≤ bitQuantize bits y := by
  unfold bitQuantize
  have hL := bitLevels_sub_one_pos bits
  have h1 : (x * (1/2) + 1/2) * (bitLevels bits - 1) ≤
      (y * (1/2) + 1/2) * (bitLevels bits - 1) :=
    mul_le_mul_of_nonneg_right (by linarith) hL.le
  have h2 := round_mono_q h1
  have h3 : ((round ((x * (1/2) + 1/2) * (bitLevels bits - 1)) : ℤ) : ℚ) ≤
      ((round ((y * (1/2) + 1/2) * (bitLevels bits - 1)) : ℤ) : ℚ) := by
    exact_mod_cast h2
  have h4 := (div_le_div_right hL).mpr h3
  linarith

theorem bitQuantize_idem (bits : ℤ) (x : ℚ) :
    bitQuantize bits (bitQuantize bits x) = bitQuantize bits x := by
  have hL := bitLevels_sub_one_pos bits
  have hLne : bitLevels bits - 1 ≠ 0 := ne_of_gt hL
  unfold bitQuantize
  set m : ℤ := round ((x * (1/2) + 1/2) * (bitLevels bits - 1)) with hm
  have harg : (((m : ℚ) / (bitLevels bits - 1) * 2 - 1) * (1/2) + 1/2) *
      (bitLevels bits - 1) = (m : ℚ) := by
    field_simp
    ring
  rw [harg, round_intCast]

theorem bitDepthCurve_eval (bits : ℤ) (i : Fin 2048) :
    bitDepthCurve bits i =
      ((round ((i.val : ℚ) * (bitLevels bits - 1) / 2047) : ℤ) : ℚ) /
        (bitLevels bits - 1) * 2 - 1 := by
  unfold bitDepthCurve bitQuantize curveX
  have harg : (((i.val : ℚ) / 2047 * 2 - 1) * (1/2) + 1/2) * (bitLevels bits - 1) =
      (i.val : ℚ) * (bitLevels bits - 1) / 2047 := by
    ring
  rw [harg]

theorem bitDepthCurve_eval_mk (bits : ℤ) (iv : ℕ) (h : iv < 2048) :
    bitDepthCurve bits ⟨iv, h⟩ =
      ((round ((iv : ℚ) * (bitLevels bits - 1) / 2047) : ℤ) : ℚ) /
        (bitLevels bits - 1) * 2 - 1 :=
  bitDepthCurve_eval bits ⟨iv, h⟩

/-- C5 counterexample: at bit depth 12 the claim asks for `2^12 = 4096`
distinct output levels, but a 2048-entry table can take at most 2048
distinct values. -/
theorem bit_depth_level_count_cex :
    (Finset.image (bitDepthCurve 12) Finset.univ).card < 2 ^ 12 := by
  have h1 : (Finset.image (bitDepthCurve 12) Finset.univ).card ≤ 2048 := by
    calc (Finset.image (bitDepthCurve 12) Finset.univ).card
        ≤ (Finset.univ : Finset (Fin 2048)).card := Finset.card_image_le
      _ = 2048 := by rw [Finset.card_univ, Fintype.card_fin]
  exact lt_of_le_of_lt h1 (by norm_num)

theorem bitDepthCurve_image (b : ℤ) (hb2 : 2 ≤ b) (hb11 : b ≤ 11) :
    Finset.image (bitDepthCurve b) Finset.univ =
      Finset.image (fun m : ℕ => (m : ℚ) / (bitLevels b - 1) * 2 - 1)
        (Finset.range (2 ^ b.toNat)) := by
  have hbits : bitDepthBits b = b := by
    unfold bitDepthBits
    omega
  have hlev : bitLevels b = (2 : ℚ) ^ b.toNat := by
    unfold bitLevels
    rw [hbits]
  set n : ℕ := b.toNat with hn
  have hn2 : 2 ≤ n := by omega
  have hn11 : n ≤ 11 := by omega
  set M : ℕ := 2 ^ n - 1 with hM
  have hpow : 1 ≤ 2 ^ n := Nat.one_le_two_pow
  have hMQ : bitLevels b - 1 = (M : ℚ) := by
    rw [hlev, hM, Nat.cast_sub hpow]
    push_cast
    ring
  have hM3 : 3 ≤ M := by
    have h4 : 4 ≤ 2 ^ n := by
      calc 4 = 2 ^ 2 := rfl
        _ ≤ 2 ^ n := Nat.pow_le_pow_right (by norm_num) hn2
    omega
  have hM2047 : M ≤ 2047 := by
    have hp : 2 ^ n ≤ 2 ^ 11 := Nat.pow_le_pow_right (by norm_num) hn11
    have h11 : (2 : ℕ) ^ 11 = 2048 := by norm_num
    omega
  have hMQpos : (0 : ℚ) < (M : ℚ) := by
    exact_mod_cast Nat.pos_of_ne_zero (by omega)
  apply Finset.Subset.antisymm
  · intro y hy
    obtain ⟨i, _, rfl⟩ := Finset.mem_image.mp hy
    set mz : ℤ := round ((i.val : ℚ) * (bitLevels b - 1) / 2047) with hmz
    have hi2047 : (i.val : ℚ) ≤ 2047 := by
      have hlt := i.isLt
      have : i.val ≤ 2047 := by omega
      exact_mod_cast this
    have harg_nonneg : (0 : ℚ) ≤ (i.val : ℚ) * (bitLevels b - 1) / 2047 := by
      rw [hMQ]
      positivity
    have harg_le : (i.val : ℚ) * (bitLevels b - 1) / 2047 ≤ (M : ℚ) := by
      rw [hMQ, div_le_iff (by norm_num : (0 : ℚ) < 2047)]
      calc (i.val : ℚ) * M ≤ 2047 * M := mul_le_mul_of_nonneg_right hi2047 hMQpos.le
        _ = M * 2047 := mul_comm _ _
    have hz0 : 0 ≤ mz := by
      rw [hmz]
      calc (0 : ℤ) = round (0 : ℚ) := by simp
        _ ≤ round ((i.val : ℚ) * (bitLevels b - 1) / 2047) := round_mono_q harg_nonneg
    have hzM : mz ≤ (M : ℤ) := by
      rw [hmz]
      calc round ((i.val : ℚ) * (bitLevels b - 1) / 2047) ≤ round ((M : ℚ)) :=
          round_mono_q harg_le
        _ = (M : ℤ) := by
          rw [show ((M : ℕ) : ℚ) = (((M : ℕ) : ℤ) : ℚ) from by push_cast; ring,
            round_intCast]
    refine Finset.mem_image.mpr ⟨mz.toNat, ?_, ?_⟩
    · rw [Finset.mem_range]
      omega
    · have hcast : ((mz.toNat : ℕ) : ℚ) = (mz : ℚ) := by
        exact_mod_cast Int.toNat_of_nonneg hz0
      rw [bitDepthCurve_eval, hcast, hmz]
  · intro y hy
    obtain ⟨m, hm, rfl⟩ := Finset.mem_image.mp hy
    rw [Finset.mem_range] at hm
    have hmM : m ≤ M := by omega
    by_cases hm0 : m = 0
    · subst hm0
      refine Finset.mem_image.mpr ⟨⟨0, by norm_num⟩, Finset.mem_univ _, ?_⟩
      rw [bitDepthCurve_eval_mk b 0 (by norm_num)]
      norm_num
    · have hm1 : 1 ≤ m := Nat.one_le_iff_ne_zero.mpr hm0
      have hm1q : (1 : ℚ) ≤ (m : ℚ) := by exact_mod_cast hm1
      have hmMq : (m : ℚ) ≤ (M : ℚ) := by exact_mod_cast hmM
      set a : ℚ := ((m : ℚ) - 1/2) * 2047 / (M : ℚ) with ha
      have hapos : 0 < a := by
        rw [ha]
        apply div_pos (by nlinarith) hMQpos
      set iz : ℤ := ⌈a⌉ with hiz
      have hiz1 : 1 ≤ iz := by
        have := Int.lt_ceil.mpr (show ((0 : ℤ) : ℚ) < a from by exact_mod_cast hapos)
        omega
      have hle : a ≤ (iz : ℚ) := Int.le_ceil a
      have hlt : (iz : ℚ) < a + 1 := Int.ceil_lt_add_one a
      have hiz2047 : iz ≤ 2047 := by
        have h1 : a ≤ ((M : ℚ) - 1/2) * 2047 / (M : ℚ) := by
          rw [ha]
          apply (div_le_div_right hMQpos).mpr
          nlinarith
        have h2 : ((M : ℚ) - 1/2) * 2047 / (M : ℚ) < 2047 := by
          rw [div_lt_iff hMQpos]
          nlinarith
        have h3 : (iz : ℚ) < 2048 := by linarith
        have h4 : iz < 2048 := by exact_mod_cast h3
        omega
      have hx_lb : (m : ℚ) - 1/2 ≤ (iz : ℚ) * (M : ℚ) / 2047 := by
        rw [le_div_iff (by norm_num : (0 : ℚ) < 2047)]
        have h5 := hle
        rw [ha, div_le_iff hMQpos] at h5
        linarith
      have hx_ub : (iz : ℚ) * (M : ℚ) / 2047 < (m : ℚ) + 1/2 := by
        rw [div_lt_iff (by norm_num : (0 : ℚ) < 2047)]
        have h4 : (iz : ℚ) * M < (a + 1) * M := mul_lt_mul_of_pos_right hlt hMQpos
        have h5 : (a + 1) * (M : ℚ) = ((m : ℚ) - 1/2) * 2047 + M := by
          rw [ha]
          field_simp
          ring
        have h6 : (M : ℚ) ≤ 2047 := by exact_mod_cast hM2047
        nlinarith
      have hround : round ((iz : ℚ) * (bitLevels b - 1) / 2047) = ((m : ℕ) : ℤ) := by
        rw [hMQ, round_eq, Int.floor_eq_iff]
        constructor
        · push_cast
          linarith
        · push_cast
          linarith
      have hbound : iz.toNat < 2048 := by omega
      refine Finset.mem_image.mpr ⟨⟨iz.toNat, hbound⟩, Finset.mem_univ _, ?_⟩
      rw [bitDepthCurve_eval_mk b iz.toNat hbound,
        show ((iz.toNat : ℕ) : ℚ) = (iz : ℚ) from by exact_mod_cast Int.toNat_of_nonneg (by omega),
        hround]
      push_cast
      ring

/-- C5 (amended): for every bit depth `b` in [2, 16], the 2048-point curve
is monotone non-decreasing in the table index and the quantizer is
idempotent as a transfer function; the curve takes exactly `2^b` distinct
output values when `b ≤ 11`, while for `b ≥ 12` the 2048-entry table is
bounded by 2048 distinct values, fewer than `2^b`. -/
theorem bit_depth_curve_amended (b : ℤ) (hb2 : 2 ≤ b) (hb16 : b ≤ 16) :
    (∀ i j : Fin 2048, i ≤ j → bitDepthCurve b i ≤ bitDepthCurve b j) ∧
    (∀ x : ℚ, bitQuantize b (bitQuantize b x) = bitQuantize b x) ∧
    (Finset.image (bitDepthCurve b) Finset.univ).card ≤ 2048 ∧
    (b ≤ 11 → (Finset.image (bitDepthCurve b) Finset.univ).card = 2 ^ b.toNat) := by
  refine ⟨?_, bitQuantize_idem b, ?_, ?_⟩
  · intro i j hij
    apply bitQuantize_mono
    unfold curveX
    have hv : i.val ≤ j.val := hij
    have hq : (i.val : ℚ) ≤ (j.val : ℚ) := by exact_mod_cast hv
    have h27 : (0 : ℚ) < 2047 := by norm_num
    have hd := (div_le_div_right h27).mpr hq
    linarith
  · calc (Finset.image (bitDepthCurve b) Finset.univ).card
        ≤ (Finset.univ : Finset (Fin 2048)).card := Finset.card_image_le
      _ = 2048 := by rw [Finset.card_univ, Fintype.card_fin]
  · intro hb11
    rw [bitDepthCurve_image b hb2 hb11,
      Finset.card_image_of_injOn ?inj, Finset.card_range]
    case inj =>
      intro m1 _ m2 _ hEq
      have hL := bitLevels_sub_one_pos b
      have hLne : bitLevels b - 1 ≠ 0 := ne_of_gt hL
      have h3 : (m1 : ℚ) / (bitLevels b - 1) = (m2 : ℚ) / (bitLevels b - 1) := by
        dsimp only at hEq
        linarith
      rw [div_eq_div_iff hLne hLne] at h3
      have : (m1 : ℚ) = (m2 : ℚ) := by
        have := mul_right_cancel₀ hLne h3
        exact this
      exact_mod_cast this

/-- Witness for C5 at bit depth 8. -/
theorem bit_depth_curve_amended_witness :
    (Finset.image (bitDepthCurve 8) Finset.univ).card = 2 ^ (8 : ℤ).toNat :=
  (bit_depth_curve_amended 8 (by norm_num) (by norm_num)).2.2.2 (by norm_num)

/-! ### C4: pulse periodic-wave coefficients -/

/-- C4 counterexample: `makePulseWave` at duty `d = 1/4`, harmonic
`k = 1`: the table holds `2·sin(2π·1·d)/(π·1) = 2/π`, while the claim's
closed form `2·sin(1·π·d)/(1·π)` is `√2/π`. -/
theorem pulse_real_formula_cex :
    jlnPulseReal (1/4) ⟨1, by norm_num⟩ ≠
      2 * Real.sin (1 * Real.pi * (1/4)) / (1 * Real.pi) := by
  have hd : jlnPulseDuty (1/4) = 1/4 := by
    unfold jlnPulseDuty jsClampR
    rw [if_neg (by norm_num), min_eq_right (by norm_num), max_eq_right (by norm_num)]
  have hlhs : jlnPulseReal (1/4) ⟨1, by norm_num⟩ = 2 / Real.pi := by
    unfold jlnPulseReal
    rw [if_neg (by norm_num), hd]
    rw [show (2 : ℝ) * Real.pi * ((1 : ℕ) : ℝ) * (1/4) = Real.pi / 2 by
      push_cast; ring]
    rw [Real.sin_pi_div_two]
    push_cast
    ring
  have hrhs : 2 * Real.sin (1 * Real.pi * (1/4)) / (1 * Real.pi) =
      Real.sqrt 2 / Real.pi := by
    rw [show (1 : ℝ) * Real.pi * (1/4) = Real.pi / 4 by ring, Real.sin_pi_div_four]
    ring
  rw [hlhs, hrhs]
  intro hEq
  have hpi := Real.pi_ne_zero
  have h2 : (2 : ℝ) = Real.sqrt 2 := by
    field_simp at hEq
    linarith
  have hsq : Real.sqrt 2 ^ 2 = 2 := Real.sq_sqrt (by norm_num)
  rw [← h2] at hsq
  norm_num at hsq

/-- C4 (amended): for a duty in [0.05, 0.95] (the intersection of the two
clamp ranges, so both tables use the duty unchanged): both tables have
zero DC — index 0 of the real and imaginary arrays is 0; the core table
(`_getPulseWave`) matches the claim's closed form, harmonic `n` having
real component `2·sin(nπd)/(nπ)` and imaginary component 0; the jln table
(`makePulseWave`) instead uses the full-cycle angle `2πkd`: real component
`2·sin(2πkd)/(kπ)` and imaginary component `2·(1−cos(2πkd))/(kπ)`. -/
theorem pulse_wave_tables_amended (duty : ℝ) (k : Fin 65) (n : Fin 64)
    (hd1 : (1/20 : ℝ) ≤ duty) (hd2 : duty ≤ 19/20)
    (hk : 1 ≤ k.val) (hn : 1 ≤ n.val) :
    jlnPulseReal duty (0 : Fin 65) = 0 ∧
    jlnPulseImag duty (0 : Fin 65) = 0 ∧
    corePulseReal duty (0 : Fin 64) = 0 ∧
    corePulseImag duty (0 : Fin 64) = 0 ∧
    corePulseReal duty n = 2 * Real.sin (n.val * Real.pi * duty) / (n.val * Real.pi) ∧
    corePulseImag duty n = 0 ∧
    jlnPulseReal duty k = 2 * Real.sin (2 * Real.pi * k.val * duty) / (Real.pi * k.val) ∧
    jlnPulseImag duty k =
      2 * (1 - Real.cos (2 * Real.pi * k.val * duty)) / (Real.pi * k.val) := by
  have hd0 : duty ≠ 0 := by
    intro h
    rw [h] at hd1
    norm_num at hd1
  have hjd : jlnPulseDuty duty = duty := by
    unfold jlnPulseDuty jsClampR
    rw [if_neg hd0, min_eq_right (by linarith), max_eq_right (by linarith)]
  have hcd : corePulseDuty duty = duty := by
    unfold corePulseDuty
    rw [min_eq_right (by linarith), max_eq_right (by linarith)]
  have hk0 : k.val ≠ 0 := by omega
  have hn0 : n.val ≠ 0 := by omega
  have hnv : (0 : ℝ) < (n.val : ℝ) := by
    exact_mod_cast Nat.pos_of_ne_zero hn0
  refine ⟨?_, ?_, ?_, ?_, ?_, rfl, ?_, ?_⟩
  · simp [jlnPulseReal]
  · simp [jlnPulseImag]
  · simp [corePulseReal]
  · rfl
  · unfold corePulseReal
    rw [if_neg hn0, hcd]
    rw [div_mul_eq_mul_div, mul_comm ((n.val : ℝ)) Real.pi]
  · unfold jlnPulseReal
    rw [if_neg hk0, hjd]
  · unfold jlnPulseImag
    rw [if_neg hk0, hjd]

/-- Witness for C4 at duty 1/2, harmonics k = n = 1: the jln DC entry. -/
theorem pulse_wave_tables_amended_witness :
    jlnPulseReal (1/2) (0 : Fin 65) = 0 :=
  (pulse_wave_tables_amended (1/2) ⟨1, by norm_num⟩ ⟨1, by norm_num⟩
    (by norm_num) (by norm_num) (by norm_num) (by norm_num)).1

/-! ### C1: the early-release gain envelope of `playNote` -/

theorem envFloor_pos : (0 : ℝ) < envFloor := by
  unfold envFloor
  norm_num

theorem earlyOff_t0 : earlyOffParams.t0 = 0 := rfl

theorem earlyOff_tOff : envTOff earlyOffParams = 1/20 := by
  show (0 : ℝ) + max 0.001 (1/20) = 1/20
  rw [max_eq_right (by norm_num)]
  norm_num

theorem earlyOff_tA : envTA earlyOffParams = 1/10 := by
  show (0 : ℝ) + max 0 (min 4 (1/10)) = 1/10
  rw [min_eq_right (by norm_num), max_eq_right (by norm_num)]
  norm_num

theorem earlyOff_tD : envTD earlyOffParams = 3/10 := by
  show envTA earlyOffParams + max 0 (min 4 (1/5)) = 3/10
  rw [earlyOff_tA, min_eq_right (by norm_num), max_eq_right (by norm_num)]
  norm_num

theorem earlyOff_tR : envTR earlyOffParams = 3/20 := by
  show envTOff earlyOffParams + max 0.001 (min 6 (1/10)) = 3/20
  rw [earlyOff_tOff, min_eq_right (by norm_num), max_eq_right (by norm_num)]
  norm_num

theorem earlyOff_peak : envPeak earlyOffParams = 4/5 := by
  show max (2/10000) ((4/5 : ℝ) * max 0 (min 1 1)) = 4/5
  rw [min_self, max_eq_right (by norm_num : (0 : ℝ) ≤ 1), mul_one,
    max_eq_right (by norm_num)]

/-- The interpolated level the code commits at the early note-off: the
value the in-progress attack ramp would have reached at `tOff`. -/
theorem expAt_earlyOff_val :
    expAt envFloor (envPeak earlyOffParams) 0 (1/10) (1/20) =
      envFloor * (8000 : ℝ) ^ ((1 : ℝ)/2) := by
  rw [earlyOff_peak]
  unfold expAt envFloor
  rw [if_pos (by norm_num : (0 : ℝ) < 1/10), max_self,
    max_eq_right (by norm_num : (1/10000 : ℝ) ≤ 4/5),
    show ((1/20 : ℝ) - 0) / (1/10 - 0) = 1/2 by norm_num,
    min_eq_right (by norm_num : (1/2 : ℝ) ≤ 1),
    max_eq_right (by norm_num : (0 : ℝ) ≤ 1/2)]
  norm_num

/-- On `[t0, tOff)` the canceled schedule holds the floor value: the
attack ramp was removed whole. -/
theorem playNoteGain_earlyOff_before (t : ℝ) (h0 : 0 ≤ t) (hlt : t < 1/20) :
    playNoteGain earlyOffParams t = envFloor := by
  unfold playNoteGain
  rw [earlyOff_t0, earlyOff_tOff, earlyOff_tA, earlyOff_tD]
  rw [if_neg (not_lt.mpr h0), if_pos (by norm_num), if_pos (by norm_num), if_pos hlt]

/-- At `tOff` itself the set event commits the interpolated level. -/
theorem playNoteGain_earlyOff_at_tOff :
    playNoteGain earlyOffParams (1/20) = envFloor * (8000 : ℝ) ^ ((1 : ℝ)/2) := by
  unfold playNoteGain
  rw [earlyOff_t0, earlyOff_tOff, earlyOff_tA, earlyOff_tD, earlyOff_tR]
  rw [if_neg (by norm_num), if_pos (by norm_num), if_pos (by norm_num),
    if_neg (by norm_num), if_pos (by norm_num)]
  rw [expAt_earlyOff_val]
  have h8 : (1 : ℝ) < (8000 : ℝ) ^ ((1 : ℝ)/2) :=
    (Real.one_lt_rpow_iff_of_pos (by norm_num)).mpr (Or.inl ⟨by norm_num, by norm_num⟩)
  rw [max_eq_right (by nlinarith [envFloor_pos])]
  unfold expRampAt
  rw [show ((1/20 : ℝ) - 1/20) / (3/20 - 1/20) = 0 by norm_num, Real.rpow_zero, mul_one]

/-- C1 evidence of the code bug: at the concrete early-note-off trigger
`earlyOffParams` (note-off at `tOff = 0.05 s`, mid-attack), the scheduled
gain is constant at the floor `g0 = 1e-4` on the whole of `[t0, tOff)` —
`cancelScheduledValues(tOff)` removed the in-progress attack ramp, whose
event time `tA ≥ tOff` — while the value committed at `tOff` is the
code's `expAt` interpolation `g0·8000^(1/2) ≈ 8.9e-3`, strictly above the
floor; hence the envelope is NOT continuous at the early-release boundary,
contrary to the claim (and to the code's own "click-free" comment). -/
theorem playNote_early_release_gain_jump :
    (∀ t : ℝ, 0 ≤ t → t < 1/20 → playNoteGain earlyOffParams t = envFloor) ∧
    playNoteGain earlyOffParams (1/20) =
      expAt envFloor (envPeak earlyOffParams) 0 (1/10) (1/20) ∧
    envFloor < playNoteGain earlyOffParams (1/20) ∧
    ¬ ContinuousAt (playNoteGain earlyOffParams) (1/20) := by
  have h8 : (1 : ℝ) < (8000 : ℝ) ^ ((1 : ℝ)/2) :=
    (Real.one_lt_rpow_iff_of_pos (by norm_num)).mpr (Or.inl ⟨by norm_num, by norm_num⟩)
  have hval := playNoteGain_earlyOff_at_tOff
  have hgt : envFloor < playNoteGain earlyOffParams (1/20) := by
    rw [hval]
    nlinarith [envFloor_pos]
  refine ⟨playNoteGain_earlyOff_before, ?_, hgt, ?_⟩
  · rw [hval, expAt_earlyOff_val]
  · intro hc
    have h1 : Filter.Tendsto (playNoteGain earlyOffParams)
        (nhdsWithin (1/20 : ℝ) (Set.Iio (1/20)))
        (nhds (playNoteGain earlyOffParams (1/20))) :=
      (hc.continuousWithinAt).tendsto
    have hmem : Set.Ioo (0 : ℝ) (1/20) ∈ nhdsWithin (1/20 : ℝ) (Set.Iio (1/20)) :=
      Ioo_mem_nhdsWithin_Iio (by constructor <;> norm_num)
    have hEq : playNoteGain earlyOffParams =ᶠ[nhdsWithin (1/20 : ℝ) (Set.Iio (1/20))]
        (fun _ => envFloor) := by
      filter_upwards [hmem] with t ht
      exact playNoteGain_earlyOff_before t ht.1.le ht.2
    have h2 : Filter.Tendsto (fun _ : ℝ => envFloor)
        (nhdsWithin (1/20 : ℝ) (Set.Iio (1/20)))
        (nhds (playNoteGain earlyOffParams (1/20))) :=
      Filter.Tendsto.congr' hEq h1
    have h3 := tendsto_nhds_unique h2 tendsto_const_nhds
    exact ne_of_gt hgt h3
